import Mathlib

/-!
Verification of the subharmonic generator firmware core
(`src/subharmonicon.cpp`): the pitch quantizer, the encoder-driven UI
state machine, the waveform capture ring buffer, and the oscillator
bank mixing rule.

Modelling conventions:
* C++ `float` arithmetic is idealized as exact ordered-field
  arithmetic.  The quantizer's numeric core is stated over an
  arbitrary `LinearOrderedField` with a `FloorRing` instance, so the
  same definition serves both for theorems over `ℝ` (where the
  `log2f`/`powf` conversions live) and for concrete evaluation over
  `ℚ`.  All quantities flowing through the quantizer's selection loop
  (floor results, scale offsets, the root note) are integer-valued,
  and in the firmware's numeric range (|pitch| < 2000) a `float`
  represents them exactly, so the idealization is faithful there.
* C++ `%` on `int` with the positive constant `108` agrees with
  `Int.emod` on the non-negative values the program maintains
  (`root_note_midi` starts at 69 and every update is a `% 108`
  result), so `Int.emod` is used.
* The external daisysp `Oscillator` primitive (declared out of scope
  by the design) is modelled as an abstract state type with `SetFreq`
  and `Process` operations.
-/

namespace Subharmonicon

/-! ### Constants (src/subharmonicon.cpp lines 264-269) -/

abbrev kNumSubharmonics : ℕ := 4
def kWaveformBufferSize : ℕ := 128
def kNumScales : ℕ := 25
def kNumNotes : ℕ := 12
def kNumOctaves : ℕ := 9

/-! ### Display and menu enumerations (lines 240-252) -/

inductive DisplayMode where
  | WAVEFORM
  | XY
deriving DecidableEq, Repr

inductive MenuState where
  | SCALE_SELECTION
  | ROOT_NOTE_SELECTION
deriving DecidableEq, Repr

/-! ### Quantizer scale table (lines 272-298).  The C++ table stores
the semitone offsets as `float`, but every entry is an integer in
[0, 11]; they are embedded as `ℤ`. -/

def scales : List (List ℤ) :=
  [ [0, 2, 4, 5, 7, 9, 11],
    [0, 2, 3, 5, 7, 8, 10],
    [0, 2, 5, 7, 9],
    [0, 2, 3, 5, 7, 9, 10],
    [0, 1, 3, 5, 7, 8, 10],
    [0, 2, 4, 6, 7, 9, 11],
    [0, 2, 4, 5, 7, 9, 10],
    [0, 1, 3, 5, 6, 8, 10],
    [0, 2, 4, 6, 8, 10],
    [0, 1, 2, 3, 4, 5, 6, 7, 8, 9, 10, 11],
    [0, 3, 5, 6, 7, 10],
    [0, 2, 3, 5, 7, 8, 11],
    [0, 2, 3, 5, 7, 9, 11],
    [0, 1, 4, 5, 7, 8, 11],
    [0, 1, 4, 5, 7, 8, 10],
    [0, 1, 4, 5, 7, 8, 11],
    [0, 1, 3, 6, 7, 10],
    [0, 1, 4, 5, 7, 9, 11],
    [0, 1, 5, 7, 8, 11],
    [0, 1, 3, 5, 7, 8, 10],
    [0, 1, 4, 5, 7, 9, 11],
    [0, 2, 4, 5, 7, 9, 10, 11],
    [0, 2, 3, 5, 7, 9, 10, 11],
    [0, 2, 4, 5, 8, 9, 11],
    [0, 2, 4, 5, 7, 9, 10] ]

/-- The offsets of the scale selected by `current_scale_idx`
(`scales[current_scale_idx]` in the C++; indices used by the program
are always `< kNumScales`). -/
def scaleOffsets (s : ℕ) : List ℤ := scales.getD s []

/-! ### Quantizer numeric core (lines 363-380)

`Quantize` converts the input frequency to a continuous MIDI pitch
`midi_note = 12 * log2(freq / 440) + 69`, then scans the scale
offsets, keeping a running `closest` value that starts at the root
note and is replaced whenever a candidate
`floor(midi_note / 12) * 12 + note + root` is strictly closer to
`midi_note`.  The result is clamped to [0, 127] and converted back.
The selection loop is stated over any linear ordered field with a
floor so that it can be both proved about (over `ℝ`) and evaluated
(over `ℚ`). -/

variable {K : Type} [LinearOrderedField K] [FloorRing K]

/-- One candidate of the selection loop:
`floorf(midi_note / 12.0f) * 12.0f + note + root_midi` (line 371). -/
def quantCandidate (p : K) (r o : ℤ) : ℤ := ⌊p / 12⌋ * 12 + o + r

/-- The body of the loop of lines 369-374: replace the running
`closest` by the candidate for offset `o` exactly when the candidate
is strictly closer to `midi_note`. -/
def selStep (p : K) (r : ℤ) (closest o : ℤ) : ℤ :=
  if |p - (quantCandidate p r o : K)| < |p - (closest : K)| then
    quantCandidate p r o
  else closest

/-- The `closest` value after the loop of lines 369-374: start at the
root note, fold `selStep` over the scale offsets. -/
def selectPitch (offsets : List ℤ) (r : ℤ) (p : K) : ℤ :=
  offsets.foldl (selStep p r) r

/-- The pitch finally handed to `MidiToFrequency`: the selected pitch
clamped by `fmax(0.0f, fmin(127.0f, closest))` (line 377).  The
subsequent `static_cast<int>` (line 379) truncates toward zero, which
is the identity here because the clamped value is an integer-valued
float in [0, 127]. -/
def quantizePitch (offsets : List ℤ) (r : ℤ) (p : K) : ℤ :=
  max 0 (min 127 (selectPitch offsets r p))

/-- `MidiToFrequency` (lines 357-360): `440 * 2^((midi_note - 69) / 12)`. -/
noncomputable def MidiToFrequency (m : ℤ) : ℝ :=
  440 * (2 : ℝ) ^ (((m : ℝ) - 69) / 12)

/-- The pitch-number conversion on line 365:
`12.0f * log2f(freq / 440.0f) + 69.0f`. -/
noncomputable def pitchOf (f : ℝ) : ℝ := 12 * Real.logb 2 (f / 440) + 69

/-- `Quantize` (lines 363-380), with the globals `current_scale_idx`
and `root_note_midi` made explicit parameters. -/
noncomputable def Quantize (s : ℕ) (r : ℤ) (f : ℝ) : ℝ :=
  MidiToFrequency (quantizePitch (scaleOffsets s) r (pitchOf f))

/-! ### Evaluation of the selection core at integer pitches

The concrete inputs used to settle the claims all have integer pitch
numbers, where the whole selection loop is integer arithmetic (Lean's
`Int` division `/` is floored division for the positive divisor 12,
matching `⌊p / 12⌋`).  These mirror `quantCandidate`/`selStep`/
`selectPitch`/`quantizePitch` and are proved equal to them below, so
that concrete runs can be checked by `decide`. -/

def quantCandidateZ (p r o : ℤ) : ℤ := (p / 12) * 12 + o + r

def selStepZ (p r closest o : ℤ) : ℤ :=
  if |p - quantCandidateZ p r o| < |p - closest| then quantCandidateZ p r o
  else closest

def selectPitchZ (offsets : List ℤ) (r p : ℤ) : ℤ :=
  offsets.foldl (selStepZ p r) r

def quantizePitchZ (offsets : List ℤ) (r p : ℤ) : ℤ :=
  max 0 (min 127 (selectPitchZ offsets r p))

/-! ### UI state machine (lines 335-354 and 383-441)

The encoder driver is external; one control tick delivers the three
signals `RisingEdge()`, `Increment()` and `Pressed()` sampled for that
tick (the C++ reads `Increment()` once into `encoder_increment`). -/

structure EncoderInput where
  rising_edge : Bool
  increment : ℤ
  pressed : Bool
deriving DecidableEq, Repr

/-- The global UI state of the firmware: `display_mode`, `menu_state`,
`menu_active` (lines 349-351), the quantizer selection
`current_scale_idx` and `root_note_midi` (lines 336-337), and the
debounce flag `last_encoder_pressed` (line 354). -/
structure UiState where
  display_mode : DisplayMode
  menu_state : MenuState
  menu_active : Bool
  current_scale_idx : ℕ
  root_note_midi : ℤ
  last_encoder_pressed : Bool
deriving DecidableEq, Repr

/-- Startup values (lines 336-354): scale 0, root 69, waveform view,
scale-selection page, menu off, debounce flag clear. -/
def initialUiState : UiState :=
  { display_mode := DisplayMode.WAVEFORM
    menu_state := MenuState.SCALE_SELECTION
    menu_active := false
    current_scale_idx := 0
    root_note_midi := 69
    last_encoder_pressed := false }

/-- The menu-page toggle of lines 424-425. -/
def pageToggle : MenuState → MenuState
  | MenuState.SCALE_SELECTION => MenuState.ROOT_NOTE_SELECTION
  | MenuState.ROOT_NOTE_SELECTION => MenuState.SCALE_SELECTION

/-- The display-mode toggle of line 438. -/
def displayToggle : DisplayMode → DisplayMode
  | DisplayMode.WAVEFORM => DisplayMode.XY
  | DisplayMode.XY => DisplayMode.WAVEFORM

/-- `UpdateEncoder` (lines 383-441) as a pure transition on `UiState`.
The statement mirrors the C++ control flow: first the rising-edge
menu toggle (with forced waveform view on exit), then — depending on
the updated `menu_active` — either the menu navigation (increment
then debounced press) or the display-mode toggle.  `kNumNotes *
kNumOctaves = 108`; the C++ `%` on `int` agrees with `Int.emod` on
the non-negative root values the program maintains. -/
def UpdateEncoder (st : UiState) (e : EncoderInput) : UiState :=
  let s1 :=
    if e.rising_edge then
      let ma := !st.menu_active
      if ma then { st with menu_active := ma }
      else { st with menu_active := ma, display_mode := DisplayMode.WAVEFORM }
    else st
  if s1.menu_active then
    let s2 :=
      if 0 < e.increment then
        match s1.menu_state with
        | MenuState.SCALE_SELECTION =>
            { s1 with current_scale_idx := (s1.current_scale_idx + 1) % kNumScales }
        | MenuState.ROOT_NOTE_SELECTION =>
            { s1 with root_note_midi :=
                (s1.root_note_midi + 1) % ((kNumNotes * kNumOctaves : ℕ) : ℤ) }
      else if e.increment < 0 then
        match s1.menu_state with
        | MenuState.SCALE_SELECTION =>
            { s1 with current_scale_idx :=
                (s1.current_scale_idx + kNumScales - 1) % kNumScales }
        | MenuState.ROOT_NOTE_SELECTION =>
            { s1 with root_note_midi :=
                (s1.root_note_midi + ((kNumNotes * kNumOctaves : ℕ) : ℤ) - 1) %
                  ((kNumNotes * kNumOctaves : ℕ) : ℤ) }
      else s1
    if e.pressed && !s2.last_encoder_pressed then
      { s2 with
          menu_state := pageToggle s2.menu_state
          last_encoder_pressed := true }
    else if !e.pressed then { s2 with last_encoder_pressed := false }
    else s2
  else
    if e.increment ≠ 0 then
      { s1 with display_mode := displayToggle s1.display_mode }
    else s1

/-- A control tick that only advances the selection of the active
menu page by one step (no edge, no press). -/
def incrementTick (n : ℤ) : EncoderInput :=
  { rising_edge := false, increment := n, pressed := false }

/-- A control tick with the encoder button held down (no edge since
last poll, no rotation). -/
def pressTick : EncoderInput :=
  { rising_edge := false, increment := 0, pressed := true }

/-- A pure click tick: a rising edge with no rotation and the level
already released again by poll time. -/
def clickTick : EncoderInput :=
  { rising_edge := true, increment := 0, pressed := false }

/-- The menu opened on the scale page, otherwise at startup values. -/
def menuOnScaleState : UiState :=
  { initialUiState with menu_active := true }

/-- Performance view switched to the XY display, menu closed. -/
def xyPerformState : UiState :=
  { initialUiState with display_mode := DisplayMode.XY }

/-- The menu opened on the root page, otherwise at startup values. -/
def menuOnRootState : UiState :=
  { initialUiState with
      menu_active := true
      menu_state := MenuState.ROOT_NOTE_SELECTION }

/-! ### Waveform capture buffer (lines 344-346 and 519-521)

The two channel buffers are `std::array<float, 128>`; samples are
held abstractly (the buffer only stores and reads back values), so
the state is parametrized by the sample type.  The buffers are total
functions from `ℕ`; the program only ever touches indices `< 128`. -/

structure WaveState (α : Type) where
  osc_buffer_l : ℕ → α
  osc_buffer_r : ℕ → α
  buffer_index : ℕ

/-- Lines 519-521: store the stereo sample at the shared cursor in
both channel buffers and advance the cursor modulo
`kWaveformBufferSize`. -/
def pushSample {α : Type} (w : WaveState α) (ml mr : α) : WaveState α :=
  { osc_buffer_l := Function.update w.osc_buffer_l w.buffer_index ml
    osc_buffer_r := Function.update w.osc_buffer_r w.buffer_index mr
    buffer_index := (w.buffer_index + 1) % kWaveformBufferSize }

/-- Folding a sequence of stereo pushes, in order. -/
def pushAll {α : Type} (w : WaveState α) (ps : List (α × α)) : WaveState α :=
  ps.foldl (fun s p => pushSample s p.1 p.2) w

/-- The startup buffer state (lines 344-346): both channels
zero-initialized, cursor at slot 0; integer samples stand in for the
stored `float`s, which the buffer never computes with. -/
def initialWave : WaveState ℤ :=
  { osc_buffer_l := fun _ => 0
    osc_buffer_r := fun _ => 0
    buffer_index := 0 }

/-! ### Oscillator bank and mixer (lines 339-341 and 496-527)

The daisysp `Oscillator` is an external collaborator (spec section 6:
`setFrequency(hz)`, `process() -> sample`); it is modelled as an
abstract state type `σ` with the two operations.  `Process` returns
the produced sample together with the advanced state. -/

structure OscModel (σ : Type) where
  SetFreq : σ → ℝ → σ
  Process : σ → ℝ × σ

/-- `subharmonic_ratios` (line 341): fixed divisors 2, 3, 4, 5. -/
noncomputable def subharmonic_ratios : Fin kNumSubharmonics → ℝ := ![2, 3, 4, 5]

/-- The per-sample body of `AudioCallback` (lines 502-516): given the
quantized base frequency `freq`, retune generator `j` to
`freq / subharmonic_ratios[j]`, take one sample from it, accumulate
even indices into `mix_l` and odd into `mix_r`, then scale both sums
by `0.5`.  Returns the stereo sample and the advanced generators. -/
noncomputable def audioTick {σ : Type} (M : OscModel σ) (freq : ℝ)
    (oscs : Fin kNumSubharmonics → σ) :
    (ℝ × ℝ) × (Fin kNumSubharmonics → σ) :=
  let res := (List.finRange kNumSubharmonics).foldl
    (fun (acc : (ℝ × ℝ) × (Fin kNumSubharmonics → σ)) j =>
      let tuned := M.SetFreq (acc.2 j) (freq / subharmonic_ratios j)
      let pr := M.Process tuned
      let oscs' := Function.update acc.2 j pr.2
      if j.val % 2 = 0 then ((acc.1.1 + pr.1, acc.1.2), oscs')
      else ((acc.1.1, acc.1.2 + pr.1), oscs'))
    ((0, 0), oscs)
  ((res.1.1 * 0.5, res.1.2 * 0.5), res.2)

/-- The sample generator `j` produces on a tick with base frequency
`freq`: the result of `Process` after `SetFreq(freq / ratio_j)`. -/
noncomputable def tickSample {σ : Type} (M : OscModel σ) (freq : ℝ)
    (oscs : Fin kNumSubharmonics → σ) (j : Fin kNumSubharmonics) : ℝ :=
  (M.Process (M.SetFreq (oscs j) (freq / subharmonic_ratios j))).1

/-- The advanced state of generator `j` after a tick. -/
noncomputable def tickState {σ : Type} (M : OscModel σ) (freq : ℝ)
    (oscs : Fin kNumSubharmonics → σ) (j : Fin kNumSubharmonics) : σ :=
  (M.Process (M.SetFreq (oscs j) (freq / subharmonic_ratios j))).2

/-! ### Transport between `ℝ` and `ℚ` instances of the selection core -/

theorem quantCandidate_ratCast (q : ℚ) (r o : ℤ) :
    quantCandidate ((q : ℝ)) r o = quantCandidate q r o := by
  unfold quantCandidate
  have h : ((q : ℝ) / 12) = (((q / 12 : ℚ) : ℝ)) := by push_cast; ring
  rw [h, Rat.floor_cast]

theorem abs_sub_intCast_ratCast_lt (q : ℚ) (c d : ℤ) :
    (|(q : ℝ) - (c : ℝ)| < |(q : ℝ) - (d : ℝ)|) ↔ (|q - (c : ℚ)| < |q - (d : ℚ)|) := by
  have h1 : ((q : ℝ) - (c : ℝ)) = (((q - (c : ℚ) : ℚ)) : ℝ) := by push_cast; ring
  have h2 : ((q : ℝ) - (d : ℝ)) = (((q - (d : ℚ) : ℚ)) : ℝ) := by push_cast; ring
  rw [h1, h2, ← Rat.cast_abs, ← Rat.cast_abs, Rat.cast_lt]

theorem selStep_ratCast (q : ℚ) (r closest o : ℤ) :
    selStep ((q : ℝ)) r closest o = selStep q r closest o := by
  unfold selStep
  rw [quantCandidate_ratCast]
  by_cases h : |q - (quantCandidate q r o : ℚ)| < |q - (closest : ℚ)|
  · rw [if_pos ((abs_sub_intCast_ratCast_lt q _ _).mpr h), if_pos h]
  · rw [if_neg (fun hh => h ((abs_sub_intCast_ratCast_lt q _ _).mp hh)), if_neg h]

theorem selectPitch_ratCast (offsets : List ℤ) (r : ℤ) (q : ℚ) :
    selectPitch offsets r ((q : ℝ)) = selectPitch offsets r q := by
  unfold selectPitch
  have haux : ∀ (l : List ℤ) (acc : ℤ),
      l.foldl (selStep ((q : ℝ)) r) acc = l.foldl (selStep q r) acc := by
    intro l
    induction l with
    | nil => intro acc; rfl
    | cons o rest ih =>
        intro acc
        simp only [List.foldl_cons, selStep_ratCast]
        exact ih _
  exact haux offsets r

theorem quantizePitch_ratCast (offsets : List ℤ) (r : ℤ) (q : ℚ) :
    quantizePitch offsets r ((q : ℝ)) = quantizePitch offsets r q := by
  unfold quantizePitch
  rw [selectPitch_ratCast]

theorem floor_intCast_div_twelve (p : ℤ) : ⌊((p : K)) / 12⌋ = p / 12 := by
  have h : ((p : K)) / 12 = (((p : ℚ) / 12 : ℚ) : K) := by push_cast; ring
  rw [h, Rat.floor_cast]
  have h2 : ((p : ℚ) / 12) = ((p : ℚ) / ((12 : ℕ) : ℚ)) := by norm_num
  rw [h2, Rat.floor_intCast_div_natCast]
  norm_num

theorem quantCandidate_intCast (p r o : ℤ) :
    quantCandidate ((p : K)) r o = quantCandidateZ p r o := by
  unfold quantCandidate quantCandidateZ
  rw [floor_intCast_div_twelve]

omit [FloorRing K] in
theorem abs_sub_intCast_lt (p c d : ℤ) :
    (|(p : K) - (c : K)| < |(p : K) - (d : K)|) ↔ (|p - c| < |p - d|) := by
  have h1 : ((p : K) - (c : K)) = (((p - c : ℤ)) : K) := by push_cast; ring
  have h2 : ((p : K) - (d : K)) = (((p - d : ℤ)) : K) := by push_cast; ring
  rw [h1, h2, ← Int.cast_abs, ← Int.cast_abs, Int.cast_lt]

theorem selStep_intCast (p r closest o : ℤ) :
    selStep ((p : K)) r closest o = selStepZ p r closest o := by
  unfold selStep selStepZ
  rw [quantCandidate_intCast]
  by_cases h : |p - quantCandidateZ p r o| < |p - closest|
  · rw [if_pos ((abs_sub_intCast_lt p _ _).mpr h), if_pos h]
  · rw [if_neg (fun hh => h ((abs_sub_intCast_lt p _ _).mp hh)), if_neg h]

theorem selectPitch_intCast (offsets : List ℤ) (r p : ℤ) :
    selectPitch offsets r ((p : K)) = selectPitchZ offsets r p := by
  unfold selectPitch selectPitchZ
  have haux : ∀ (l : List ℤ) (acc : ℤ),
      l.foldl (selStep ((p : K)) r) acc = l.foldl (selStepZ p r) acc := by
    intro l
    induction l with
    | nil => intro acc; rfl
    | cons o rest ih =>
        intro acc
        simp only [List.foldl_cons, selStep_intCast]
        exact ih _
  exact haux offsets r

theorem quantizePitch_intCast (offsets : List ℤ) (r p : ℤ) :
    quantizePitch offsets r ((p : K)) = quantizePitchZ offsets r p := by
  unfold quantizePitch quantizePitchZ
  rw [selectPitch_intCast]

/-! ### Frequency-to-pitch computations over `ℝ` -/

theorem pitchOf_fourForty_mul_rpow (x : ℝ) :
    pitchOf (440 * (2 : ℝ) ^ x) = 12 * x + 69 := by
  unfold pitchOf
  have h440 : (440 : ℝ) ≠ 0 := by norm_num
  have h : (440 * (2 : ℝ) ^ x) / 440 = (2 : ℝ) ^ x := by
    field_simp
  rw [h, Real.logb_rpow (by norm_num) (by norm_num)]

/-- Feeding a `MidiToFrequency` output back through the pitch
conversion recovers the pitch exactly (in the idealized arithmetic). -/
theorem pitchOf_MidiToFrequency (m : ℤ) :
    pitchOf (MidiToFrequency m) = ((m : ℝ)) := by
  unfold MidiToFrequency
  rw [pitchOf_fourForty_mul_rpow]
  ring

theorem pitchOf_fourForty : pitchOf 440 = 69 := by
  have h : (440 : ℝ) = 440 * (2 : ℝ) ^ (0 : ℝ) := by
    rw [Real.rpow_zero]; ring
  rw [h, pitchOf_fourForty_mul_rpow]
  ring

theorem MidiToFrequency_lt {m n : ℤ} (h : m < n) :
    MidiToFrequency m < MidiToFrequency n := by
  unfold MidiToFrequency
  have hexp : ((m : ℝ) - 69) / 12 < ((n : ℝ) - 69) / 12 := by
    have : (m : ℝ) < (n : ℝ) := by exact_mod_cast h
    linarith
  have := (Real.rpow_lt_rpow_left_iff (x := 2) (by norm_num)).mpr hexp
  linarith

theorem MidiToFrequency_injective : Function.Injective MidiToFrequency := by
  intro m n h
  rcases lt_trichotomy m n with hlt | heq | hgt
  · exact absurd h (MidiToFrequency_lt hlt).ne
  · exact heq
  · exact absurd h.symm (MidiToFrequency_lt hgt).ne

/-- Evaluating `Quantize` at a frequency whose pitch number is an
integer reduces to the integer-level selection loop. -/
theorem Quantize_eq_of_pitchOf_int (s : ℕ) (r : ℤ) (f : ℝ) (p : ℤ)
    (hpf : pitchOf f = ((p : ℝ))) :
    Quantize s r f = MidiToFrequency (quantizePitchZ (scaleOffsets s) r p) := by
  unfold Quantize
  rw [hpf, quantizePitch_intCast]

theorem Quantize_fourForty : Quantize 0 69 440 = MidiToFrequency 69 := by
  rw [Quantize_eq_of_pitchOf_int 0 69 440 69
    (by rw [pitchOf_fourForty]; norm_num)]
  have h : quantizePitchZ (scaleOffsets 0) 69 69 = 69 := by decide
  rw [h]

/-! ### Structural properties of the selection loop -/

theorem foldl_selStep_eq_or_mem (p : K) (r : ℤ) (l : List ℤ) :
    ∀ acc : ℤ, l.foldl (selStep p r) acc = acc ∨
      l.foldl (selStep p r) acc ∈ l.map (quantCandidate p r) := by
  induction l with
  | nil => intro acc; left; rfl
  | cons o rest ih =>
      intro acc
      simp only [List.foldl_cons, List.map_cons]
      rcases ih (selStep p r acc o) with h | h
      · rw [h]
        unfold selStep
        by_cases hc : |p - (quantCandidate p r o : K)| < |p - (acc : K)|
        · rw [if_pos hc]; right; exact List.mem_cons_self _ _
        · rw [if_neg hc]; left; rfl
      · right; exact List.mem_cons_of_mem _ h

theorem foldl_selStep_abs_le_acc (p : K) (r : ℤ) (l : List ℤ) :
    ∀ acc : ℤ, |p - ((l.foldl (selStep p r) acc : ℤ) : K)| ≤ |p - (acc : K)| := by
  induction l with
  | nil => intro acc; exact le_refl _
  | cons o rest ih =>
      intro acc
      simp only [List.foldl_cons]
      refine le_trans (ih (selStep p r acc o)) ?_
      unfold selStep
      by_cases hc : |p - (quantCandidate p r o : K)| < |p - (acc : K)|
      · rw [if_pos hc]; exact hc.le
      · rw [if_neg hc]

theorem foldl_selStep_abs_le_cand (p : K) (r : ℤ) (l : List ℤ) :
    ∀ (acc o : ℤ), o ∈ l →
      |p - ((l.foldl (selStep p r) acc : ℤ) : K)| ≤ |p - (quantCandidate p r o : K)| := by
  induction l with
  | nil => intro acc o h; exact absurd h (List.not_mem_nil o)
  | cons o' rest ih =>
      intro acc o hmem
      simp only [List.foldl_cons]
      rcases List.mem_cons.mp hmem with rfl | h
      · refine le_trans (foldl_selStep_abs_le_acc p r rest _) ?_
        unfold selStep
        by_cases hc : |p - (quantCandidate p r o : K)| < |p - (acc : K)|
        · rw [if_pos hc]
        · rw [if_neg hc]; exact not_lt.mp hc
      · exact ih _ o h

theorem foldl_selStep_keep (p : K) (r : ℤ) (l : List ℤ) (acc : ℤ)
    (h : ∀ o ∈ l, |p - (acc : K)| ≤ |p - (quantCandidate p r o : K)|) :
    l.foldl (selStep p r) acc = acc := by
  induction l with
  | nil => rfl
  | cons o rest ih =>
      simp only [List.foldl_cons]
      have hstep : selStep p r acc o = acc := by
        unfold selStep
        rw [if_neg (not_lt.mpr (h o (List.mem_cons_self o rest)))]
      rw [hstep]
      exact ih fun o' ho' => h o' (List.mem_cons_of_mem o ho')

/-- The selected pitch is the root note or one of the scale candidates. -/
theorem selectPitch_mem (offsets : List ℤ) (r : ℤ) (p : K) :
    selectPitch offsets r p = r ∨
      selectPitch offsets r p ∈ offsets.map (quantCandidate p r) :=
  foldl_selStep_eq_or_mem p r offsets r

/-- The selected pitch minimizes the distance to the input pitch over
the root note together with all candidates. -/
theorem selectPitch_min (offsets : List ℤ) (r : ℤ) (p : K) :
    ∀ x ∈ r :: offsets.map (quantCandidate p r),
      |p - ((selectPitch offsets r p : ℤ) : K)| ≤ |p - (x : K)| := by
  intro x hx
  rcases List.mem_cons.mp hx with rfl | hx
  · exact foldl_selStep_abs_le_acc p x offsets x
  · obtain ⟨o, ho, rfl⟩ := List.mem_map.mp hx
    exact foldl_selStep_abs_le_cand p r offsets r o ho

/-- When the root note already attains the minimum distance the loop
keeps the root: replacement happens only on strict improvement. -/
theorem selectPitch_eq_root (offsets : List ℤ) (r : ℤ) (p : K)
    (h : ∀ x ∈ offsets.map (quantCandidate p r), |p - (r : K)| ≤ |p - (x : K)|) :
    selectPitch offsets r p = r :=
  foldl_selStep_keep p r offsets r fun o ho =>
    h _ (List.mem_map.mpr ⟨o, ho, rfl⟩)

/-- At an input pitch equal to the root note the loop returns the root. -/
theorem selectPitch_root_fixed (offsets : List ℤ) (r : ℤ) :
    selectPitch offsets r ((r : ℤ) : K) = r := by
  refine selectPitch_eq_root offsets r _ fun x _ => ?_
  have : |((r : ℤ) : K) - ((r : ℤ) : K)| = 0 := by simp
  rw [this]
  exact abs_nonneg _

theorem quantizePitch_root_fixed (offsets : List ℤ) (r : ℤ)
    (h0 : 0 ≤ r) (h127 : r ≤ 127) :
    quantizePitch offsets r ((r : ℤ) : K) = r := by
  unfold quantizePitch
  rw [selectPitch_root_fixed, min_eq_right h127, max_eq_right h0]

/-! ### Claim C1: candidate selection -/

/-- Claim C1, counterexample.  At input frequency 440 Hz with the
default scale 0 (Major) and root note 69, the pitch number is exactly
69 and the scale candidates are `floor(69/12)*12 + o + 69 = 129 + o`;
the claim says the returned frequency is the conversion of the
distance-minimizing candidate, but `Quantize` returns the conversion
of pitch 69 — the root note the loop's `closest` was initialized
with, which is not a candidate and is 60 semitones away from the
nearest one. -/
theorem quantize_result_not_candidate_cex :
    Quantize 0 69 440 = MidiToFrequency 69 ∧
    ∀ o ∈ scaleOffsets 0,
      Quantize 0 69 440 ≠ MidiToFrequency (quantCandidate (pitchOf 440) 69 o) := by
  refine ⟨Quantize_fourForty, fun o ho => ?_⟩
  rw [Quantize_fourForty]
  have hp : pitchOf 440 = (((69 : ℤ) : ℝ)) := by rw [pitchOf_fourForty]; norm_num
  rw [hp, quantCandidate_intCast]
  have hcand : quantCandidateZ 69 69 o = 129 + o := by
    unfold quantCandidateZ
    norm_num
    omega
  rw [hcand]
  have ho' : 0 ≤ o := by fin_cases ho <;> norm_num
  exact (MidiToFrequency_lt (by omega)).ne

/-- Claim C1, amended.  For every frequency `f > 0`, valid scale
index and root note, `Quantize` computes the pitch number
`12*log2(f/440) + 69` and selects — by a strict-improvement scan that
starts from the root note `r` itself — a value minimizing
`|pitch - x|` over `x ∈ {r} ∪ {floor(pitch/12)*12 + o + r}`; when the
root already attains the minimum the root is kept (ties never
replace), and the returned frequency is the conversion of that
selected value clamped to [0,127].  The selected pitch is the root or
a candidate, but not necessarily a candidate. -/
theorem quantize_min_over_root_and_candidates (s : ℕ) (r : ℤ) (f : ℝ)
    (hf : 0 < f) (hs : s < kNumScales) (hr0 : 0 ≤ r) (hr : r < 108) :
    (selectPitch (scaleOffsets s) r (pitchOf f) = r ∨
      selectPitch (scaleOffsets s) r (pitchOf f) ∈
        (scaleOffsets s).map (quantCandidate (pitchOf f) r)) ∧
    (∀ x ∈ r :: (scaleOffsets s).map (quantCandidate (pitchOf f) r),
      |pitchOf f - ((selectPitch (scaleOffsets s) r (pitchOf f) : ℤ) : ℝ)| ≤
        |pitchOf f - ((x : ℤ) : ℝ)|) ∧
    ((∀ x ∈ (scaleOffsets s).map (quantCandidate (pitchOf f) r),
      |pitchOf f - ((r : ℤ) : ℝ)| ≤ |pitchOf f - ((x : ℤ) : ℝ)|) →
      selectPitch (scaleOffsets s) r (pitchOf f) = r) ∧
    Quantize s r f =
      MidiToFrequency (max 0 (min 127 (selectPitch (scaleOffsets s) r (pitchOf f)))) :=
  ⟨selectPitch_mem _ _ _, selectPitch_min _ _ _, selectPitch_eq_root _ _ _, rfl⟩

/-- Witness for the amended C1 at frequency 440 Hz, scale 0, root 69. -/
theorem quantize_min_over_root_and_candidates_witness :
    (0 : ℝ) < 440 ∧ 0 < kNumScales ∧ (0 : ℤ) ≤ 69 ∧ (69 : ℤ) < 108 ∧
    Quantize 0 69 440 =
      MidiToFrequency (max 0 (min 127 (selectPitch (scaleOffsets 0) 69 (pitchOf 440)))) :=
  ⟨by norm_num, by norm_num [kNumScales], by norm_num, by norm_num,
    (quantize_min_over_root_and_candidates 0 69 440 (by norm_num)
      (by norm_num [kNumScales]) (by norm_num) (by norm_num)).2.2.2⟩

/-! ### Claim C2: clamping to the MIDI range -/

/-- Claim C2.  Before converting back to a frequency, `Quantize`
clamps the selected pitch to [0,127]; for every input frequency
`f > 0` the returned frequency is `440 * 2^((p-69)/12)` for some
integer pitch `p` with `0 ≤ p ≤ 127`. -/
theorem quantize_output_in_midi_range (s : ℕ) (r : ℤ) (f : ℝ) (hf : 0 < f) :
    ∃ p : ℤ, 0 ≤ p ∧ p ≤ 127 ∧ Quantize s r f = MidiToFrequency p :=
  ⟨quantizePitch (scaleOffsets s) r (pitchOf f),
    le_max_left _ _, max_le (by norm_num) (min_le_left _ _), rfl⟩

/-- Witness for C2 at frequency 440 Hz, scale 0, root 69. -/
theorem quantize_output_in_midi_range_witness :
    (0 : ℝ) < 440 ∧
    ∃ p : ℤ, 0 ≤ p ∧ p ≤ 127 ∧ Quantize 0 69 440 = MidiToFrequency p :=
  ⟨by norm_num, quantize_output_in_midi_range 0 69 440 (by norm_num)⟩

/-! ### Claim C4: idempotence -/

/-- Claim C4, counterexample.  At the frequency `440 * 2^(61/12)`
(pitch number 130) with scale 0 and the default root 69, the first
quantization selects candidate 189 and clamps it to pitch 127, but
re-quantizing the result (pitch 127) returns the root pitch 69:
`Quantize` is not idempotent, and the discrepancy is 58 semitones,
far beyond any floating-point tolerance. -/
theorem quantize_not_idempotent_cex :
    Quantize 0 69 (Quantize 0 69 (440 * (2 : ℝ) ^ ((61 : ℝ) / 12))) ≠
      Quantize 0 69 (440 * (2 : ℝ) ^ ((61 : ℝ) / 12)) := by
  have h1 : pitchOf (440 * (2 : ℝ) ^ ((61 : ℝ) / 12)) = (((130 : ℤ) : ℝ)) := by
    rw [pitchOf_fourForty_mul_rpow]; norm_num
  have h2 : Quantize 0 69 (440 * (2 : ℝ) ^ ((61 : ℝ) / 12)) = MidiToFrequency 127 := by
    rw [Quantize_eq_of_pitchOf_int 0 69 _ 130 h1]
    have h : quantizePitchZ (scaleOffsets 0) 69 130 = 127 := by decide
    rw [h]
  have h3 : Quantize 0 69 (MidiToFrequency 127) = MidiToFrequency 69 := by
    rw [Quantize_eq_of_pitchOf_int 0 69 _ 127 (pitchOf_MidiToFrequency 127)]
    have h : quantizePitchZ (scaleOffsets 0) 69 127 = 69 := by decide
    rw [h]
  rw [h2, h3]
  exact (MidiToFrequency_lt (by norm_num)).ne

/-- Claim C4, amended.  `Quantize` is not idempotent in general (see
the counterexample); it is idempotent at every input whose first
quantization returns the root pitch: if `Quantize(f,s,r)` equals the
conversion of `r` (with `0 ≤ r ≤ 127`), a second application returns
the same frequency, because at an input pitch equal to the root the
strict-improvement scan keeps the root. -/
theorem quantize_idempotent_when_root_selected (s : ℕ) (r : ℤ) (f : ℝ)
    (h0 : 0 ≤ r) (h127 : r ≤ 127)
    (hroot : Quantize s r f = MidiToFrequency r) :
    Quantize s r (Quantize s r f) = Quantize s r f := by
  rw [hroot]
  show Quantize s r (MidiToFrequency r) = MidiToFrequency r
  unfold Quantize
  rw [pitchOf_MidiToFrequency, quantizePitch_root_fixed _ _ h0 h127]

/-- Witness for the amended C4 at frequency 440 Hz, scale 0, root 69
(whose quantization returns the root pitch 69). -/
theorem quantize_idempotent_when_root_selected_witness :
    (0 : ℤ) ≤ 69 ∧ (69 : ℤ) ≤ 127 ∧ Quantize 0 69 440 = MidiToFrequency 69 ∧
    Quantize 0 69 (Quantize 0 69 440) = Quantize 0 69 440 :=
  ⟨by norm_num, by norm_num, Quantize_fourForty,
    quantize_idempotent_when_root_selected 0 69 440 (by norm_num) (by norm_num)
      Quantize_fourForty⟩

/-! ### UI state machine lemmas -/

theorem updateEncoder_press_edge (st : UiState) (e : EncoderInput)
    (hm : st.menu_active = true) (hre : e.rising_edge = false)
    (hp : e.pressed = true) (hl : st.last_encoder_pressed = false) :
    (UpdateEncoder st e).menu_state = pageToggle st.menu_state ∧
    (UpdateEncoder st e).menu_active = true ∧
    (UpdateEncoder st e).last_encoder_pressed = true := by
  unfold UpdateEncoder
  simp only [hm, hre, hp, hl]
  by_cases h1 : 0 < e.increment
  · cases hms : st.menu_state <;> simp [hm, h1, hms, hl, pageToggle]
  · by_cases h2 : e.increment < 0
    · cases hms : st.menu_state <;> simp [hm, h1, h2, hms, hl, pageToggle]
    · simp [hm, h1, h2, hl, pageToggle]

theorem updateEncoder_press_held (st : UiState) (e : EncoderInput)
    (hm : st.menu_active = true) (hre : e.rising_edge = false)
    (hp : e.pressed = true) (hl : st.last_encoder_pressed = true) :
    (UpdateEncoder st e).menu_state = st.menu_state ∧
    (UpdateEncoder st e).menu_active = true ∧
    (UpdateEncoder st e).last_encoder_pressed = true := by
  unfold UpdateEncoder
  simp only [hm, hre, hp, hl]
  by_cases h1 : 0 < e.increment
  · cases hms : st.menu_state <;> simp [hm, h1, hms, hl]
  · by_cases h2 : e.increment < 0
    · cases hms : st.menu_state <;> simp [hm, h1, h2, hms, hl]
    · simp [hm, h1, h2, hl]

theorem updateEncoder_press_released (st : UiState) (e : EncoderInput)
    (hm : st.menu_active = true) (hre : e.rising_edge = false)
    (hp : e.pressed = false) :
    (UpdateEncoder st e).menu_state = st.menu_state ∧
    (UpdateEncoder st e).menu_active = true ∧
    (UpdateEncoder st e).last_encoder_pressed = false := by
  unfold UpdateEncoder
  simp only [hm, hre, hp]
  by_cases h1 : 0 < e.increment
  · cases hms : st.menu_state <;> simp [hm, h1, hms]
  · by_cases h2 : e.increment < 0
    · cases hms : st.menu_state <;> simp [hm, h1, h2, hms]
    · simp [hm, h1, h2]

/-- While the menu stays active and the button stays held, no tick
changes the menu page once the debounce flag is set. -/
theorem updateEncoder_held_run (es : List EncoderInput) :
    ∀ st : UiState, st.menu_active = true → st.last_encoder_pressed = true →
      (∀ i ∈ es, i.pressed = true ∧ i.rising_edge = false) →
      (es.foldl UpdateEncoder st).menu_state = st.menu_state := by
  induction es with
  | nil => intro st _ _ _; rfl
  | cons e rest ih =>
      intro st hm hl hes
      have he := hes e (List.mem_cons_self e rest)
      have hstep := updateEncoder_press_held st e hm he.2 he.1 hl
      simp only [List.foldl_cons]
      rw [ih (UpdateEncoder st e) hstep.2.1 hstep.2.2
        (fun i hi => hes i (List.mem_cons_of_mem e hi))]
      exact hstep.1

/-! ### Claim C3: debounced menu-page toggle -/

/-- Claim C3.  While the menu is active (and stays active: no rising
edge), the menu page flips exactly on the not-pressed-to-pressed
transition recorded by the one-tick-delayed `last_encoder_pressed`
flag: a press with the flag clear toggles the page and sets the flag;
with the flag set a held press leaves the page unchanged — over any
run of held ticks, not just one; releasing clears the flag without
touching the page, re-arming the next press. -/
theorem menu_page_debounced_toggle (st : UiState) (e : EncoderInput)
    (hm : st.menu_active = true) (hre : e.rising_edge = false) :
    (e.pressed = true → st.last_encoder_pressed = false →
      (UpdateEncoder st e).menu_state = pageToggle st.menu_state ∧
      (UpdateEncoder st e).last_encoder_pressed = true) ∧
    (e.pressed = true → st.last_encoder_pressed = true →
      (UpdateEncoder st e).menu_state = st.menu_state ∧
      (UpdateEncoder st e).last_encoder_pressed = true) ∧
    (e.pressed = false →
      (UpdateEncoder st e).menu_state = st.menu_state ∧
      (UpdateEncoder st e).last_encoder_pressed = false) ∧
    (∀ es : List EncoderInput,
      st.last_encoder_pressed = true →
      (∀ i ∈ es, i.pressed = true ∧ i.rising_edge = false) →
      (es.foldl UpdateEncoder st).menu_state = st.menu_state) := by
  refine ⟨fun hp hl => ?_, fun hp hl => ?_, fun hp => ?_, fun es hl hes => ?_⟩
  · have h := updateEncoder_press_edge st e hm hre hp hl
    exact ⟨h.1, h.2.2⟩
  · have h := updateEncoder_press_held st e hm hre hp hl
    exact ⟨h.1, h.2.2⟩
  · have h := updateEncoder_press_released st e hm hre hp
    exact ⟨h.1, h.2.2⟩
  · exact updateEncoder_held_run es st hm hl hes

/-- Witness for C3: from the freshly opened menu, a held press
toggles the page once (scale page to root page), and two further held
ticks leave it there. -/
theorem menu_page_debounced_toggle_witness :
    menuOnScaleState.menu_active = true ∧
    pressTick.rising_edge = false ∧
    (UpdateEncoder menuOnScaleState pressTick).menu_state =
      pageToggle menuOnScaleState.menu_state ∧
    ([pressTick, pressTick].foldl UpdateEncoder
      (UpdateEncoder menuOnScaleState pressTick)).menu_state =
      (UpdateEncoder menuOnScaleState pressTick).menu_state := by
  refine ⟨rfl, rfl, ?_, ?_⟩
  · exact ((menu_page_debounced_toggle menuOnScaleState pressTick rfl rfl).1 rfl rfl).1
  · have hflag : (UpdateEncoder menuOnScaleState pressTick).last_encoder_pressed = true :=
      ((menu_page_debounced_toggle menuOnScaleState pressTick rfl rfl).1 rfl rfl).2
    have hactive : (UpdateEncoder menuOnScaleState pressTick).menu_active = true :=
      (updateEncoder_press_edge menuOnScaleState pressTick rfl rfl rfl rfl).2.1
    exact (menu_page_debounced_toggle (UpdateEncoder menuOnScaleState pressTick)
        pressTick hactive rfl).2.2.2 [pressTick, pressTick] hflag
      (by intro i hi; fin_cases hi <;> exact ⟨rfl, rfl⟩)

/-! ### Claim C6: modular menu navigation -/

/-- Every branch of `UpdateEncoder` leaves the scale index unchanged
or maps it through one of the two wrapping updates. -/
theorem updateEncoder_scale_cases (st : UiState) (e : EncoderInput) :
    (UpdateEncoder st e).current_scale_idx = st.current_scale_idx ∨
    (UpdateEncoder st e).current_scale_idx = (st.current_scale_idx + 1) % kNumScales ∨
    (UpdateEncoder st e).current_scale_idx =
      (st.current_scale_idx + kNumScales - 1) % kNumScales := by
  obtain ⟨dm, ms, ma, sc, rn, lp⟩ := st
  obtain ⟨re, inc, pr⟩ := e
  unfold UpdateEncoder
  cases re <;> cases ma <;> cases ms <;> cases pr <;> cases lp <;>
    simp <;> split_ifs <;> simp

/-- Every branch of `UpdateEncoder` leaves the root note unchanged or
maps it through one of the two wrapping updates modulo 108. -/
theorem updateEncoder_root_cases (st : UiState) (e : EncoderInput) :
    (UpdateEncoder st e).root_note_midi = st.root_note_midi ∨
    (UpdateEncoder st e).root_note_midi = (st.root_note_midi + 1) % 108 ∨
    (UpdateEncoder st e).root_note_midi = (st.root_note_midi + 107) % 108 := by
  obtain ⟨dm, ms, ma, sc, rn, lp⟩ := st
  obtain ⟨re, inc, pr⟩ := e
  unfold UpdateEncoder
  cases re <;> cases ma <;> cases ms <;> cases pr <;> cases lp <;>
    simp [kNumNotes, kNumOctaves] <;> split_ifs <;> (try simp) <;> omega

theorem updateEncoder_incr_root_pos (st : UiState) (n : ℤ) (hn : 0 < n)
    (hm : st.menu_active = true)
    (hms : st.menu_state = MenuState.ROOT_NOTE_SELECTION) :
    UpdateEncoder st (incrementTick n) =
      { st with root_note_midi := (st.root_note_midi + 1) % 108
                last_encoder_pressed := false } := by
  unfold UpdateEncoder incrementTick
  simp [hm, hms, hn, kNumNotes, kNumOctaves]

theorem updateEncoder_incr_root_neg (st : UiState) (n : ℤ) (hn : n < 0)
    (hm : st.menu_active = true)
    (hms : st.menu_state = MenuState.ROOT_NOTE_SELECTION) :
    UpdateEncoder st (incrementTick n) =
      { st with root_note_midi := (st.root_note_midi + 108 - 1) % 108
                last_encoder_pressed := false } := by
  unfold UpdateEncoder incrementTick
  simp [hm, hms, hn.not_lt, hn, kNumNotes, kNumOctaves]

theorem updateEncoder_incr_scale_pos (st : UiState) (n : ℤ) (hn : 0 < n)
    (hm : st.menu_active = true)
    (hms : st.menu_state = MenuState.SCALE_SELECTION) :
    UpdateEncoder st (incrementTick n) =
      { st with current_scale_idx := (st.current_scale_idx + 1) % kNumScales
                last_encoder_pressed := false } := by
  unfold UpdateEncoder incrementTick
  simp [hm, hms, hn]

theorem updateEncoder_incr_scale_neg (st : UiState) (n : ℤ) (hn : n < 0)
    (hm : st.menu_active = true)
    (hms : st.menu_state = MenuState.SCALE_SELECTION) :
    UpdateEncoder st (incrementTick n) =
      { st with current_scale_idx :=
                  (st.current_scale_idx + kNumScales - 1) % kNumScales
                last_encoder_pressed := false } := by
  unfold UpdateEncoder incrementTick
  simp [hm, hms, hn.not_lt, hn]

theorem rootStep_iterate_pos (n : ℕ) : ∀ st : UiState,
    st.menu_active = true → st.menu_state = MenuState.ROOT_NOTE_SELECTION →
    0 ≤ st.root_note_midi → st.root_note_midi < 108 →
    ((fun s => UpdateEncoder s (incrementTick 1))^[n] st).root_note_midi =
      (st.root_note_midi + n) % 108 := by
  induction n with
  | zero =>
      intro st _ _ h0 h108
      simp only [Function.iterate_zero, id_eq, Nat.cast_zero, add_zero]
      omega
  | succ n ih =>
      intro st hm hms h0 h108
      rw [Function.iterate_succ_apply,
        updateEncoder_incr_root_pos st 1 (by norm_num) hm hms]
      have h := ih
        { st with root_note_midi := (st.root_note_midi + 1) % 108
                  last_encoder_pressed := false }
        hm hms (Int.emod_nonneg _ (by norm_num : (108 : ℤ) ≠ 0))
        (Int.emod_lt_of_pos _ (by norm_num : (0 : ℤ) < 108))
      rw [h]
      dsimp only
      push_cast
      omega

theorem rootStep_iterate_neg (n : ℕ) : ∀ st : UiState,
    st.menu_active = true → st.menu_state = MenuState.ROOT_NOTE_SELECTION →
    0 ≤ st.root_note_midi → st.root_note_midi < 108 →
    ((fun s => UpdateEncoder s (incrementTick (-1)))^[n] st).root_note_midi =
      (st.root_note_midi + 107 * n) % 108 := by
  induction n with
  | zero =>
      intro st _ _ h0 h108
      simp only [Function.iterate_zero, id_eq, Nat.cast_zero, mul_zero, add_zero]
      omega
  | succ n ih =>
      intro st hm hms h0 h108
      rw [Function.iterate_succ_apply,
        updateEncoder_incr_root_neg st (-1) (by norm_num) hm hms]
      have h := ih
        { st with root_note_midi := (st.root_note_midi + 108 - 1) % 108
                  last_encoder_pressed := false }
        hm hms (Int.emod_nonneg _ (by norm_num : (108 : ℤ) ≠ 0))
        (Int.emod_lt_of_pos _ (by norm_num : (0 : ℤ) < 108))
      rw [h]
      dsimp only
      push_cast
      omega

theorem scaleStep_iterate_pos (n : ℕ) : ∀ st : UiState,
    st.menu_active = true → st.menu_state = MenuState.SCALE_SELECTION →
    st.current_scale_idx < kNumScales →
    ((fun s => UpdateEncoder s (incrementTick 1))^[n] st).current_scale_idx =
      (st.current_scale_idx + n) % kNumScales := by
  induction n with
  | zero =>
      intro st _ _ h25
      simp only [Function.iterate_zero, id_eq, add_zero]
      rw [Nat.mod_eq_of_lt h25]
  | succ n ih =>
      intro st hm hms h25
      rw [Function.iterate_succ_apply,
        updateEncoder_incr_scale_pos st 1 (by norm_num) hm hms]
      have h := ih
        { st with current_scale_idx := (st.current_scale_idx + 1) % kNumScales
                  last_encoder_pressed := false }
        hm hms (Nat.mod_lt _ (by norm_num [kNumScales]))
      rw [h]
      dsimp only
      simp only [kNumScales]
      omega

/-- Claim C6.  Menu navigation is modular: the scale index stays in
`[0, kNumScales)` and the root note in `[0, 108)` under every input;
while the menu shows the root page a positive increment maps the root
by `+1 mod 108` and a negative one by `-1 mod 108` (likewise the
scale page modulo `kNumScales`); and 108 consecutive positive (or
negative) root steps, or `kNumScales` consecutive scale steps,
restore the starting value. -/
theorem menu_increment_wraparound (st : UiState) (e : EncoderInput) :
    (st.current_scale_idx < kNumScales →
      (UpdateEncoder st e).current_scale_idx < kNumScales) ∧
    (0 ≤ st.root_note_midi → st.root_note_midi < 108 →
      0 ≤ (UpdateEncoder st e).root_note_midi ∧
      (UpdateEncoder st e).root_note_midi < 108) ∧
    (st.menu_active = true → st.menu_state = MenuState.ROOT_NOTE_SELECTION →
      ∀ n : ℤ, 0 < n →
        (UpdateEncoder st (incrementTick n)).root_note_midi =
          (st.root_note_midi + 1) % 108 ∧
        (UpdateEncoder st (incrementTick (-n))).root_note_midi =
          (st.root_note_midi + 108 - 1) % 108) ∧
    (st.menu_active = true → st.menu_state = MenuState.SCALE_SELECTION →
      ∀ n : ℤ, 0 < n →
        (UpdateEncoder st (incrementTick n)).current_scale_idx =
          (st.current_scale_idx + 1) % kNumScales ∧
        (UpdateEncoder st (incrementTick (-n))).current_scale_idx =
          (st.current_scale_idx + kNumScales - 1) % kNumScales) ∧
    (st.menu_active = true → st.menu_state = MenuState.ROOT_NOTE_SELECTION →
      0 ≤ st.root_note_midi → st.root_note_midi < 108 →
      ((fun s => UpdateEncoder s (incrementTick 1))^[108] st).root_note_midi =
        st.root_note_midi ∧
      ((fun s => UpdateEncoder s (incrementTick (-1)))^[108] st).root_note_midi =
        st.root_note_midi) ∧
    (st.menu_active = true → st.menu_state = MenuState.SCALE_SELECTION →
      st.current_scale_idx < kNumScales →
      ((fun s => UpdateEncoder s (incrementTick 1))^[kNumScales] st).current_scale_idx =
        st.current_scale_idx) := by
  refine ⟨fun hsc => ?_, fun h0 h108 => ?_, fun hm hms n hn => ?_,
    fun hm hms n hn => ?_, fun hm hms h0 h108 => ?_, fun hm hms hsc => ?_⟩
  · rcases updateEncoder_scale_cases st e with h | h | h <;> rw [h]
    · exact hsc
    · exact Nat.mod_lt _ (by norm_num [kNumScales])
    · exact Nat.mod_lt _ (by norm_num [kNumScales])
  · rcases updateEncoder_root_cases st e with h | h | h <;> rw [h] <;>
      constructor <;> omega
  · rw [updateEncoder_incr_root_pos st n hn hm hms,
      updateEncoder_incr_root_neg st (-n) (by omega) hm hms]
    exact ⟨rfl, rfl⟩
  · rw [updateEncoder_incr_scale_pos st n hn hm hms,
      updateEncoder_incr_scale_neg st (-n) (by omega) hm hms]
    exact ⟨rfl, rfl⟩
  · constructor
    · rw [rootStep_iterate_pos 108 st hm hms h0 h108]
      omega
    · rw [rootStep_iterate_neg 108 st hm hms h0 h108]
      omega
  · rw [scaleStep_iterate_pos kNumScales st hm hms hsc]
    simp only [kNumScales] at hsc ⊢
    omega

/-- Witness for C6 at the concrete menu states: one positive root step
from root 69, the three full wraparound cycles, and the preserved
bounds. -/
theorem menu_increment_wraparound_witness :
    ((UpdateEncoder menuOnRootState (incrementTick 1)).root_note_midi =
      (69 + 1) % 108) ∧
    (0 ≤ (UpdateEncoder menuOnRootState (incrementTick 1)).root_note_midi ∧
      (UpdateEncoder menuOnRootState (incrementTick 1)).root_note_midi < 108) ∧
    ((fun s => UpdateEncoder s (incrementTick 1))^[108]
        menuOnRootState).root_note_midi = 69 ∧
    ((fun s => UpdateEncoder s (incrementTick (-1)))^[108]
        menuOnRootState).root_note_midi = 69 ∧
    ((fun s => UpdateEncoder s (incrementTick 1))^[kNumScales]
        menuOnScaleState).current_scale_idx = 0 := by
  refine ⟨?_, ?_, ?_, ?_, ?_⟩
  · exact ((menu_increment_wraparound menuOnRootState (incrementTick 1)).2.2.1
      rfl rfl 1 (by norm_num)).1
  · exact (menu_increment_wraparound menuOnRootState (incrementTick 1)).2.1
      (by norm_num [menuOnRootState, initialUiState])
      (by norm_num [menuOnRootState, initialUiState])
  · exact ((menu_increment_wraparound menuOnRootState (incrementTick 1)).2.2.2.2.1
      rfl rfl (by norm_num [menuOnRootState, initialUiState])
      (by norm_num [menuOnRootState, initialUiState])).1
  · exact ((menu_increment_wraparound menuOnRootState (incrementTick 1)).2.2.2.2.1
      rfl rfl (by norm_num [menuOnRootState, initialUiState])
      (by norm_num [menuOnRootState, initialUiState])).2
  · exact (menu_increment_wraparound menuOnScaleState (incrementTick 1)).2.2.2.2.2
      rfl rfl (by norm_num [menuOnScaleState, initialUiState, kNumScales])

/-! ### Claim C7: menu clicks and the forced waveform view -/

theorem updateEncoder_click_open (st : UiState) (e : EncoderInput)
    (hm : st.menu_active = false) (hre : e.rising_edge = true) :
    (UpdateEncoder st e).menu_active = true ∧
    (UpdateEncoder st e).display_mode = st.display_mode := by
  obtain ⟨dm, ms, ma, sc, rn, lp⟩ := st
  obtain ⟨re, inc, pr⟩ := e
  simp only at hm hre
  subst hm hre
  unfold UpdateEncoder
  cases ms <;> cases pr <;> cases lp <;>
    simp <;> split_ifs <;> simp

theorem updateEncoder_click_close (st : UiState) (e : EncoderInput)
    (hm : st.menu_active = true) (hre : e.rising_edge = true)
    (hi : e.increment = 0) :
    (UpdateEncoder st e).menu_active = false ∧
    (UpdateEncoder st e).display_mode = DisplayMode.WAVEFORM := by
  obtain ⟨dm, ms, ma, sc, rn, lp⟩ := st
  obtain ⟨re, inc, pr⟩ := e
  simp only at hm hre hi
  subst hm hre hi
  unfold UpdateEncoder
  simp

/-- Claim C7.  From any state with the menu closed, a click (rising
edge, no rotation) opens the menu and leaves the display mode alone;
a second click closes it again and forces the display mode back to
the waveform view — also when the display mode had been switched to
XY before the menu was entered. -/
theorem menu_click_toggle (st : UiState) (e1 e2 : EncoderInput)
    (hm : st.menu_active = false)
    (h1 : e1.rising_edge = true) (h1i : e1.increment = 0)
    (h2 : e2.rising_edge = true) (h2i : e2.increment = 0) :
    (UpdateEncoder st e1).menu_active = true ∧
    (UpdateEncoder st e1).display_mode = st.display_mode ∧
    (UpdateEncoder (UpdateEncoder st e1) e2).menu_active = false ∧
    (UpdateEncoder (UpdateEncoder st e1) e2).display_mode =
      DisplayMode.WAVEFORM := by
  have hopen := updateEncoder_click_open st e1 hm h1
  have hclose := updateEncoder_click_close (UpdateEncoder st e1) e2 hopen.1 h2 h2i
  exact ⟨hopen.1, hopen.2, hclose.1, hclose.2⟩

/-- Witness for C7 starting from the XY performance view: the first
click keeps XY and opens the menu; the second click closes it and
forces the waveform view. -/
theorem menu_click_toggle_witness :
    xyPerformState.menu_active = false ∧
    (UpdateEncoder xyPerformState clickTick).menu_active = true ∧
    (UpdateEncoder xyPerformState clickTick).display_mode = DisplayMode.XY ∧
    (UpdateEncoder (UpdateEncoder xyPerformState clickTick) clickTick).menu_active
      = false ∧
    (UpdateEncoder (UpdateEncoder xyPerformState clickTick) clickTick).display_mode
      = DisplayMode.WAVEFORM := by
  have h := menu_click_toggle xyPerformState clickTick clickTick rfl rfl rfl rfl rfl
  exact ⟨rfl, h.1, h.2.1, h.2.2.1, h.2.2.2⟩

/-! ### Claim C9: display-mode toggle on any nonzero increment -/

/-- Claim C9.  While the menu is closed (and no click arrives this
tick), any nonzero encoder increment toggles the display mode between
waveform and XY; the result depends only on the previous mode, not on
the sign or magnitude of the increment; a zero increment changes
nothing. -/
theorem display_toggle_on_increment (st : UiState) (e : EncoderInput)
    (hm : st.menu_active = false) (hre : e.rising_edge = false) :
    (e.increment ≠ 0 →
      (UpdateEncoder st e).display_mode = displayToggle st.display_mode) ∧
    (e.increment = 0 →
      (UpdateEncoder st e).display_mode = st.display_mode) ∧
    (∀ e' : EncoderInput, e'.rising_edge = false →
      e.increment ≠ 0 → e'.increment ≠ 0 →
      (UpdateEncoder st e).display_mode = (UpdateEncoder st e').display_mode) := by
  refine ⟨fun hi => ?_, fun hi => ?_, fun e' hre' hi hi' => ?_⟩
  · unfold UpdateEncoder
    simp [hm, hre, hi]
  · unfold UpdateEncoder
    simp [hm, hre, hi]
  · have h1 : (UpdateEncoder st e).display_mode = displayToggle st.display_mode := by
      unfold UpdateEncoder
      simp [hm, hre, hi]
    have h2 : (UpdateEncoder st e').display_mode = displayToggle st.display_mode := by
      unfold UpdateEncoder
      simp [hm, hre', hi']
    rw [h1, h2]

/-- Witness for C9: from the default state a `+5` twist lands on XY,
exactly where a `-3` twist lands, and a zero increment stays on the
waveform view. -/
theorem display_toggle_on_increment_witness :
    initialUiState.menu_active = false ∧
    (UpdateEncoder initialUiState (incrementTick 5)).display_mode =
      displayToggle initialUiState.display_mode ∧
    (UpdateEncoder initialUiState (incrementTick 0)).display_mode =
      initialUiState.display_mode ∧
    (UpdateEncoder initialUiState (incrementTick 5)).display_mode =
      (UpdateEncoder initialUiState (incrementTick (-3))).display_mode := by
  refine ⟨rfl, ?_, ?_, ?_⟩
  · exact (display_toggle_on_increment initialUiState (incrementTick 5)
      rfl rfl).1 (by norm_num [incrementTick])
  · exact (display_toggle_on_increment initialUiState (incrementTick 0)
      rfl rfl).2.1 rfl
  · exact (display_toggle_on_increment initialUiState (incrementTick 5)
      rfl rfl).2.2 (incrementTick (-3)) rfl (by norm_num [incrementTick])
      (by norm_num [incrementTick])

/-! ### Claim C10: frame conditions of `UpdateEncoder` -/

/-- Claim C10, counterexample.  A real opening click — rising edge
with the button level high and the debounce flag still clear — does
change the menu page: from the startup state it flips
`menu_state` from the scale page to the root page in the same tick
that opens the menu, because the press-edge handler runs right after
the click handler. -/
theorem frame_click_changes_page_cex :
    (UpdateEncoder initialUiState
      { rising_edge := true, increment := 0, pressed := true }).menu_state ≠
      initialUiState.menu_state := by
  decide

/-- Claim C10, amended.  Each `UpdateEncoder` step modifies only the
state of the current mode, with one exception forced by the code: a
menu-toggle click (zero increment) never changes the scale index or
the root note, and it leaves the menu page unchanged whenever the
press level is low or the debounce flag is already set (an opening
click with the press level high and the flag clear also toggles the
page); encoder ticks without a rising edge never change the display
mode while the menu is active, and never change the menu page, scale
index or root note while the menu is inactive. -/
theorem updateEncoder_frame_conditions (st : UiState) (e : EncoderInput) :
    (e.rising_edge = true → e.increment = 0 →
      (UpdateEncoder st e).current_scale_idx = st.current_scale_idx ∧
      (UpdateEncoder st e).root_note_midi = st.root_note_midi) ∧
    (e.rising_edge = true → e.increment = 0 →
      (e.pressed = false ∨ st.last_encoder_pressed = true) →
      (UpdateEncoder st e).menu_state = st.menu_state) ∧
    (st.menu_active = true → e.rising_edge = false →
      (UpdateEncoder st e).display_mode = st.display_mode) ∧
    (st.menu_active = false → e.rising_edge = false →
      (UpdateEncoder st e).menu_state = st.menu_state ∧
      (UpdateEncoder st e).current_scale_idx = st.current_scale_idx ∧
      (UpdateEncoder st e).root_note_midi = st.root_note_midi) := by
  obtain ⟨dm, ms, ma, sc, rn, lp⟩ := st
  obtain ⟨re, inc, pr⟩ := e
  refine ⟨fun hre hi => ?_, fun hre hi hpl => ?_, fun hm hre => ?_,
    fun hm hre => ?_⟩
  · simp only at hre hi
    subst hre hi
    unfold UpdateEncoder
    cases ma <;> cases ms <;> cases pr <;> cases lp <;> simp
  · simp only at hre hi
    subst hre hi
    rcases hpl with hpl | hpl <;> simp only at hpl <;> subst hpl <;>
      unfold UpdateEncoder <;>
      cases ma <;> cases ms <;> (try cases pr) <;> (try cases lp) <;> simp
  · simp only at hm hre
    subst hm hre
    unfold UpdateEncoder
    cases ms <;> cases pr <;> cases lp <;>
      simp <;> split_ifs <;> simp
  · simp only at hm hre
    subst hm hre
    unfold UpdateEncoder
    cases ms <;> cases pr <;> cases lp <;>
      simp <;> split_ifs <;> simp

/-- Witness for the amended C10: a closing click preserves page,
scale and root; a released-level click preserves the page; a held
menu tick keeps the display mode; and a twist outside the menu keeps
page, scale and root. -/
theorem updateEncoder_frame_conditions_witness :
    ((UpdateEncoder menuOnScaleState clickTick).current_scale_idx =
        menuOnScaleState.current_scale_idx ∧
      (UpdateEncoder menuOnScaleState clickTick).root_note_midi =
        menuOnScaleState.root_note_midi) ∧
    ((UpdateEncoder initialUiState clickTick).menu_state =
      initialUiState.menu_state) ∧
    ((UpdateEncoder menuOnScaleState pressTick).display_mode =
      menuOnScaleState.display_mode) ∧
    ((UpdateEncoder initialUiState (incrementTick 1)).menu_state =
        initialUiState.menu_state ∧
      (UpdateEncoder initialUiState (incrementTick 1)).current_scale_idx =
        initialUiState.current_scale_idx ∧
      (UpdateEncoder initialUiState (incrementTick 1)).root_note_midi =
        initialUiState.root_note_midi) := by
  refine ⟨?_, ?_, ?_, ?_⟩
  · exact (updateEncoder_frame_conditions menuOnScaleState clickTick).1 rfl rfl
  · exact (updateEncoder_frame_conditions initialUiState clickTick).2.1 rfl rfl
      (Or.inl rfl)
  · exact (updateEncoder_frame_conditions menuOnScaleState pressTick).2.2.1 rfl rfl
  · exact (updateEncoder_frame_conditions initialUiState (incrementTick 1)).2.2.2
      rfl rfl

/-! ### Claim C5: the waveform capture ring buffer -/

theorem pushSample_fields {α : Type} (w : WaveState α) (ml mr : α) :
    (pushSample w ml mr).buffer_index =
      (w.buffer_index + 1) % kWaveformBufferSize ∧
    (pushSample w ml mr).osc_buffer_l w.buffer_index = ml ∧
    (pushSample w ml mr).osc_buffer_r w.buffer_index = mr ∧
    (∀ j, j ≠ w.buffer_index →
      (pushSample w ml mr).osc_buffer_l j = w.osc_buffer_l j ∧
      (pushSample w ml mr).osc_buffer_r j = w.osc_buffer_r j) := by
  refine ⟨rfl, ?_, ?_, fun j hj => ⟨?_, ?_⟩⟩ <;>
    simp [pushSample, Function.update_apply, *]

theorem pushAll_cons {α : Type} (w : WaveState α) (p : α × α)
    (ps : List (α × α)) :
    pushAll w (p :: ps) = pushAll (pushSample w p.1 p.2) ps := rfl

theorem pushAll_untouched {α : Type} (ps : List (α × α)) :
    ∀ (w : WaveState α) (t : ℕ),
    w.buffer_index < kWaveformBufferSize → t < kWaveformBufferSize →
    (∀ j, j < ps.length → (w.buffer_index + j) % kWaveformBufferSize ≠ t) →
    (pushAll w ps).osc_buffer_l t = w.osc_buffer_l t ∧
    (pushAll w ps).osc_buffer_r t = w.osc_buffer_r t := by
  induction ps with
  | nil => intro w t _ _ _; exact ⟨rfl, rfl⟩
  | cons p rest ih =>
      intro w t hw ht hj
      have h0 := hj 0 (by simp)
      have hne : t ≠ w.buffer_index := by
        simp only [kWaveformBufferSize] at h0 hw
        omega
      have hstep := pushSample_fields w p.1 p.2
      have hw' : (pushSample w p.1 p.2).buffer_index < kWaveformBufferSize := by
        rw [hstep.1]
        simp only [kWaveformBufferSize]
        omega
      have hrest := ih (pushSample w p.1 p.2) t hw' ht ?_
      · rw [pushAll_cons]
        have huntouched := hstep.2.2.2 t hne
        exact ⟨hrest.1.trans huntouched.1, hrest.2.trans huntouched.2⟩
      · intro j hjlen
        have := hj (j + 1) (by simp only [List.length_cons]; omega)
        rw [hstep.1]
        simp only [kWaveformBufferSize] at hw this ⊢
        omega

theorem pushAll_get {α : Type} (ps : List (α × α)) :
    ∀ (w : WaveState α) (d : α × α) (k : ℕ),
    w.buffer_index < kWaveformBufferSize →
    ps.length ≤ kWaveformBufferSize → k < ps.length →
    (pushAll w ps).osc_buffer_l
        ((w.buffer_index + k) % kWaveformBufferSize) = (ps.getD k d).1 ∧
    (pushAll w ps).osc_buffer_r
        ((w.buffer_index + k) % kWaveformBufferSize) = (ps.getD k d).2 := by
  induction ps with
  | nil => intro w d k _ _ hk; exact absurd hk (by simp)
  | cons p rest ih =>
      intro w d k hw hlen hk
      have hstep := pushSample_fields w p.1 p.2
      have hw' : (pushSample w p.1 p.2).buffer_index < kWaveformBufferSize := by
        rw [hstep.1]
        simp only [kWaveformBufferSize]
        omega
      cases k with
      | zero =>
          have hslot : (w.buffer_index + 0) % kWaveformBufferSize =
              w.buffer_index := by
            simp only [kWaveformBufferSize] at hw ⊢
            omega
          rw [hslot, pushAll_cons]
          have huntouched := pushAll_untouched rest (pushSample w p.1 p.2)
            w.buffer_index hw' hw ?_
          · rw [huntouched.1, huntouched.2]
            exact ⟨hstep.2.1, hstep.2.2.1⟩
          · intro j hjlen
            rw [hstep.1]
            simp only [List.length_cons, kWaveformBufferSize] at hlen hw ⊢
            omega
      | succ k' =>
          have hslot : ((pushSample w p.1 p.2).buffer_index + k') %
              kWaveformBufferSize =
              (w.buffer_index + (k' + 1)) % kWaveformBufferSize := by
            rw [hstep.1]
            simp only [kWaveformBufferSize]
            omega
          rw [pushAll_cons, ← hslot]
          simp only [List.getD_cons_succ]
          exact ih (pushSample w p.1 p.2) d k' hw'
            (by simp only [List.length_cons] at hlen; omega)
            (by simp only [List.length_cons] at hk; omega)

/-- Claim C5.  A push stores the stereo sample in both channel
buffers at the shared cursor (and touches no other slot) and advances
the cursor by exactly one modulo `B = kWaveformBufferSize = 128`; the
cursor always stays below `B`; and after exactly `B` pushes every
slot of both channel buffers holds the corresponding pushed value —
slot `(c + k) mod B` holds push number `k` — so no zero-initialized
leftovers remain and a just-written value sits at exactly the one
slot that was the cursor. -/
theorem capture_buffer_ring {α : Type} (w : WaveState α) (ml mr : α) :
    ((pushSample w ml mr).buffer_index =
      (w.buffer_index + 1) % kWaveformBufferSize) ∧
    ((pushSample w ml mr).buffer_index < kWaveformBufferSize) ∧
    ((pushSample w ml mr).osc_buffer_l w.buffer_index = ml ∧
      (pushSample w ml mr).osc_buffer_r w.buffer_index = mr) ∧
    (∀ j, j ≠ w.buffer_index →
      (pushSample w ml mr).osc_buffer_l j = w.osc_buffer_l j ∧
      (pushSample w ml mr).osc_buffer_r j = w.osc_buffer_r j) ∧
    (∀ ps : List (α × α), ps.length = kWaveformBufferSize →
      w.buffer_index < kWaveformBufferSize →
      ∀ (d : α × α) (k : ℕ), k < kWaveformBufferSize →
        (pushAll w ps).osc_buffer_l
            ((w.buffer_index + k) % kWaveformBufferSize) = (ps.getD k d).1 ∧
        (pushAll w ps).osc_buffer_r
            ((w.buffer_index + k) % kWaveformBufferSize) = (ps.getD k d).2) ∧
    (∀ ps : List (α × α), ps.length = kWaveformBufferSize →
      w.buffer_index < kWaveformBufferSize →
      ∀ (d : α × α) (t : ℕ), t < kWaveformBufferSize →
        ∃ k, k < kWaveformBufferSize ∧
          (w.buffer_index + k) % kWaveformBufferSize = t ∧
          (pushAll w ps).osc_buffer_l t = (ps.getD k d).1 ∧
          (pushAll w ps).osc_buffer_r t = (ps.getD k d).2) := by
  have hfields := pushSample_fields w ml mr
  refine ⟨hfields.1, ?_, ⟨hfields.2.1, hfields.2.2.1⟩, hfields.2.2.2,
    fun ps hlen hw d k hk => ?_, fun ps hlen hw d t ht => ?_⟩
  · rw [hfields.1]
    simp only [kWaveformBufferSize]
    omega
  · exact pushAll_get ps w d k hw (le_of_eq hlen) (by omega)
  · refine ⟨(t + kWaveformBufferSize - w.buffer_index) % kWaveformBufferSize,
      ?_, ?_, ?_⟩
    · simp only [kWaveformBufferSize]
      omega
    · simp only [kWaveformBufferSize] at hw ht ⊢
      omega
    · have hs : (w.buffer_index +
          (t + kWaveformBufferSize - w.buffer_index) % kWaveformBufferSize) %
          kWaveformBufferSize = t := by
        simp only [kWaveformBufferSize] at hw ht ⊢
        omega
      have hget := pushAll_get ps w d
        ((t + kWaveformBufferSize - w.buffer_index) % kWaveformBufferSize)
        hw (le_of_eq hlen)
        (by simp only [kWaveformBufferSize] at hlen ⊢; omega)
      rw [hs] at hget
      exact hget

/-- Witness for C5 at the startup buffer: one push of `(7, 9)` lands
at slot 0 and nowhere else, and a full round of 128 pushes fills
every slot. -/
theorem capture_buffer_ring_witness :
    ((pushSample initialWave 7 9).buffer_index =
      (initialWave.buffer_index + 1) % kWaveformBufferSize) ∧
    ((pushSample initialWave 7 9).osc_buffer_l initialWave.buffer_index = 7 ∧
      (pushSample initialWave 7 9).osc_buffer_r initialWave.buffer_index = 9) ∧
    ((pushSample initialWave 7 9).osc_buffer_l 5 =
      initialWave.osc_buffer_l 5) ∧
    ((pushAll initialWave (List.replicate kWaveformBufferSize (7, 9))).osc_buffer_l
        ((initialWave.buffer_index + 3) % kWaveformBufferSize) =
      ((List.replicate kWaveformBufferSize ((7 : ℤ), (9 : ℤ))).getD 3 (0, 0)).1) := by
  have h := capture_buffer_ring initialWave 7 9
  refine ⟨h.1, h.2.2.1, (h.2.2.2.1 5 (by norm_num [initialWave])).1, ?_⟩
  exact (h.2.2.2.2.1 (List.replicate kWaveformBufferSize (7, 9))
    (by simp) (by norm_num [initialWave, kWaveformBufferSize]) (0, 0) 3
    (by norm_num [kWaveformBufferSize])).1

/-! ### Claim C8: oscillator bank retuning and stereo mixing -/

/-- Claim C8.  On an audio tick with base frequency `freq`, each of
the four generators `j` is retuned to `freq / ratio_j` with the fixed
ratios `(2, 3, 4, 5)` and produces one sample `s_j` (its state
advancing by exactly that one `Process` call); even-indexed samples
accumulate into the left channel and odd-indexed into the right, and
each channel sum is scaled by `0.5`, so the tick's stereo output is
`((s_0 + s_2) * 0.5, (s_1 + s_3) * 0.5)`. -/
theorem audio_tick_mixes_even_odd {σ : Type} (M : OscModel σ) (freq : ℝ)
    (oscs : Fin kNumSubharmonics → σ) :
    (audioTick M freq oscs).1 =
      ((tickSample M freq oscs 0 + tickSample M freq oscs 2) * 0.5,
       (tickSample M freq oscs 1 + tickSample M freq oscs 3) * 0.5) ∧
    (∀ j, (audioTick M freq oscs).2 j = tickState M freq oscs j) ∧
    (∀ j, tickSample M freq oscs j =
      (M.Process (M.SetFreq (oscs j) (freq / subharmonic_ratios j))).1) ∧
    subharmonic_ratios 0 = 2 ∧ subharmonic_ratios 1 = 3 ∧
    subharmonic_ratios 2 = 4 ∧ subharmonic_ratios 3 = 5 := by
  have hfr : List.finRange kNumSubharmonics = [0, 1, 2, 3] := by decide
  have e0 : ((0 : Fin kNumSubharmonics) : ℕ) % 2 = 0 := by decide
  have e1 : ((1 : Fin kNumSubharmonics) : ℕ) % 2 ≠ 0 := by decide
  have e2 : ((2 : Fin kNumSubharmonics) : ℕ) % 2 = 0 := by decide
  have e3 : ((3 : Fin kNumSubharmonics) : ℕ) % 2 ≠ 0 := by decide
  have v0 : ((0 : Fin kNumSubharmonics) : ℕ) = 0 := by decide
  have v1 : ((1 : Fin kNumSubharmonics) : ℕ) = 1 := by decide
  have v2 : ((2 : Fin kNumSubharmonics) : ℕ) = 2 := by decide
  have v3 : ((3 : Fin kNumSubharmonics) : ℕ) = 3 := by decide
  refine ⟨?_, fun j => ?_, fun j => rfl, rfl, rfl, rfl, rfl⟩
  · unfold audioTick tickSample
    rw [hfr]
    simp [Function.update, List.foldl, e0, e1, e2, e3]
  · unfold audioTick tickState
    rw [hfr]
    fin_cases j <;>
      simp [Function.update, List.foldl, Fin.ext_iff, e0, e1, e2, e3,
        v0, v1, v2, v3] <;>
      rfl

end Subharmonicon
